import Mathlib

/-!
Verification of the GraphSAGE-style recommender notebook
(`3_recommender_system/Recommendation-nodeflow.ipynb`): graph store,
neighbor-sampled node flows, layered aggregation encoder, edge batch
iterator and dot-product decoder.

Numeric arrays are modelled over the real numbers; the notebook's
floating-point `1e-6` guard becomes the real constant `eps`.
-/

namespace RecSys

noncomputable section

/-- Dense feature vectors of dimension `d` (rows of an mxnet `ndarray`). -/
abbrev Vec (d : ℕ) : Type := Fin d → ℝ

/-- Elementwise addition of two vectors. -/
def vadd {d : ℕ} (x y : Vec d) : Vec d := fun j => x j + y j

/-- The zero vector. -/
def vzero (d : ℕ) : Vec d := fun _ => 0

/-- Elementwise sum of a list of vectors (the `FN.sum` reducer, and
`nd.stack(...).sum(axis=0)`). -/
def vsum {d : ℕ} (l : List (Vec d)) : Vec d := l.foldr vadd (vzero d)

/-- Divide every component of a vector by a scalar. -/
def vdiv {d : ℕ} (x : Vec d) (c : ℝ) : Vec d := fun j => x j / c

/-- Sum of squared components. -/
def sqnorm {d : ℕ} (x : Vec d) : ℝ := ∑ j, x j ^ 2

/-- Euclidean norm, the notebook's `h_new.norm(axis=1)`. -/
def l2norm {d : ℕ} (x : Vec d) : ℝ := Real.sqrt (sqnorm x)

/-- The `1e-6` guard constant used throughout the notebook. -/
def eps : ℝ := 1 / 1000000

/-- A fully-connected `nn.Dense` layer: weight matrix plus bias row
(mxnet's `nn.Dense` has `use_bias=True` by default). -/
structure Dense (din dout : ℕ) where
  weight : Fin dout → Fin din → ℝ
  bias : Fin dout → ℝ

/-- Application of a `Dense` layer to an input vector. -/
def Dense.apply {din dout : ℕ} (W : Dense din dout) (x : Vec din) : Vec dout :=
  fun j => (∑ k, W.weight j k * x k) + W.bias j

/-- `nn.LeakyReLU(slope)` on a scalar. -/
def leakyReLU (slope : ℝ) (x : ℝ) : ℝ := if x < 0 then slope * x else x

/-- `nn.LeakyReLU(slope)` applied elementwise. -/
def vleakyReLU {d : ℕ} (slope : ℝ) (x : Vec d) : Vec d := fun j => leakyReLU slope (x j)

/-- The parameters of one `GraphSageNodeUpdate` block: a single dense
layer `W : nn.Dense(feature_size)` acting on the concatenation of the
previous embedding and the scaled aggregate (hence input width `d + d`). -/
structure GraphSageNodeUpdate (d : ℕ) where
  W : Dense (d + d) d

/-- The pre-normalization output `h_new` of `GraphSageNodeUpdate.forward`:
`h_new = leaky_relu(W(concat(h, h_agg / maximum(deg, 1e-6))))`. -/
def GraphSageNodeUpdate.preNorm {d : ℕ} (u : GraphSageNodeUpdate d)
    (h h_agg : Vec d) (deg : ℝ) : Vec d :=
  vleakyReLU (1 / 10) (u.W.apply (Fin.append h (vdiv h_agg (max deg eps))))

/-- `GraphSageNodeUpdate.forward`: the pre-normalization output divided
by its guarded Euclidean norm, `h_new / maximum(h_new.norm(axis=1), 1e-6)`. -/
def GraphSageNodeUpdate.forward {d : ℕ} (u : GraphSageNodeUpdate d)
    (h h_agg : Vec d) (deg : ℝ) : Vec d :=
  vdiv (u.preNorm h h_agg deg) (max (l2norm (u.preNorm h h_agg deg)) eps)

/-- Categorical attributes of a USER node (all table indices). -/
structure UserAttr where
  age : ℕ
  gender : ℕ
  occupation : ℕ
  zip : ℕ

/-- Attributes of an ITEM (movie) node: a categorical year and a dense
genre vector of dimension `gd`. -/
structure MovieAttr (gd : ℕ) where
  year : ℕ
  genre : Vec gd

/-- Parameters of the notebook's `UserEmbedding` block: one embedding
table per categorical attribute plus the shared per-node table. -/
structure UserEmbedding (d : ℕ) where
  emb_age : ℕ → Vec d
  emb_gender : ℕ → Vec d
  emb_occupation : ℕ → Vec d
  emb_zip : ℕ → Vec d
  node_emb : ℕ → Vec d

/-- `UserEmbedding.forward`: `node_emb(nid + 1)` plus the elementwise sum
of the four categorical table lookups. -/
def UserEmbedding.forward {d : ℕ} (m : UserEmbedding d) (a : UserAttr) (nid : ℕ) : Vec d :=
  vadd (m.node_emb (nid + 1))
    (vsum [m.emb_age a.age, m.emb_gender a.gender, m.emb_occupation a.occupation,
      m.emb_zip a.zip])

/-- Parameters of the notebook's `MovieEmbedding` block: a year table, a
genre projection `nn.Dense(feature_size)` followed by `nn.LeakyReLU(0.1)`,
and the shared per-node table. -/
structure MovieEmbedding (d gd : ℕ) where
  emb_year : ℕ → Vec d
  proj_genre : Dense gd d
  node_emb : ℕ → Vec d

/-- `MovieEmbedding.forward`: `node_emb(nid + 1)` plus the elementwise sum
of the year lookup and the leaky-rectified dense projection of the genre
vector. -/
def MovieEmbedding.forward {d gd : ℕ} (m : MovieEmbedding d gd) (a : MovieAttr gd)
    (nid : ℕ) : Vec d :=
  vadd (m.node_emb (nid + 1))
    (vsum [m.emb_year a.year, vleakyReLU (1 / 10) (m.proj_genre.apply a.genre)])

/-- The notebook's `DotDecoder` parameters: one shared bias row of length
`num_nodes + 1`, modelled as a total table over ids. -/
structure DotDecoder where
  biases : ℕ → ℝ

/-- `DotDecoder.forward`: `(h_users * h_items).sum(1) + biases[users+1] +
biases[items+1]` — elementwise product summed, plus two lookups into the
single shared bias table. -/
def DotDecoder.forward {d : ℕ} (dec : DotDecoder) (h_users h_items : Vec d)
    (users items : ℕ) : ℝ :=
  (∑ j, h_users j * h_items j) + dec.biases (users + 1) + dec.biases (items + 1)

/-- Dot product of two vectors. -/
def dotP {d : ℕ} (x y : Vec d) : ℝ := ∑ j, x j * y j

/-- Modelled from the spec: the Scorer contract of section 4.5,
`score(h_src, h_dst, src_id, dst_id) = dot(h_src, h_dst) + bias[src_id] +
bias[dst_id]` with `bias` a single shared vector indexed by node id. -/
def scoreSpec {d : ℕ} (bias : ℕ → ℝ) (h_src h_dst : Vec d) (src dst : ℕ) : ℝ :=
  dotP h_src h_dst + bias src + bias dst

/-- Pointwise description of `vsum`. -/
theorem vsum_apply {d : ℕ} (l : List (Vec d)) (j : Fin d) :
    vsum l j = (l.map (fun x => x j)).sum := by
  induction l with
  | nil => simp [vsum, vzero]
  | cons a l ih => simp [vsum, vadd] at ih ⊢; simp [ih]

/-- Node types: in the notebook `type == 1` marks USER nodes and
`type == 0` marks ITEM (movie) nodes. -/
inductive NodeType : Type
  | USER : NodeType
  | ITEM : NodeType
deriving DecidableEq

/-- The read-only Graph Store attribute side: a type tag and the
type-specific attribute record for every node id. -/
structure GraphStore (gd : ℕ) where
  ntype : ℕ → NodeType
  uattr : ℕ → UserAttr
  mattr : ℕ → MovieAttr gd

/-- A DGL `NodeFlow` as consumed by `GraphSageEncoder.forward`:
`numBlocks` aggregation blocks over `numBlocks + 1` node layers.
Layer `0` holds the most distant sampled ancestors and layer
`numBlocks` (the flow's last layer) holds the seed nodes; block `i`
records, for every node `v` of layer `i + 1`, the list of its sampled
in-neighbors sitting in layer `i`. -/
structure NodeFlow where
  numBlocks : ℕ
  layerNodes : ℕ → Finset ℕ
  blockIn : ℕ → ℕ → List ℕ

/-- The seed (target) node set of a flow: by construction of the DGL
neighbor sampler the seeds are exactly the flow's last layer. -/
def NodeFlow.seeds (nf : NodeFlow) : Finset ℕ := nf.layerNodes nf.numBlocks

/-- Parameters of the notebook's `GraphSageEncoder`: per-layer update
blocks for each node type (`user_layers[i]` / `movie_layers[i]`) and the
two initial-embedding blocks. -/
structure GraphSageEncoder (d gd : ℕ) where
  user_layers : ℕ → GraphSageNodeUpdate d
  movie_layers : ℕ → GraphSageNodeUpdate d
  user_emb : UserEmbedding d
  movie_emb : MovieEmbedding d gd

variable {d gd : ℕ}

/-- The initial feature embedding assigned to node `v`, dispatched on the
node's type exactly as the first loop of `GraphSageEncoder.forward` does
(`user_emb` on user nodes, `movie_emb` on movie nodes). -/
def initEmbed (G : GraphStore gd) (enc : GraphSageEncoder d gd) (v : ℕ) : Vec d :=
  match G.ntype v with
  | NodeType.USER => enc.user_emb.forward (G.uattr v) v
  | NodeType.ITEM => enc.movie_emb.forward (G.mattr v) v

/-- The update block used at layer `i` for node `v`: `user_layers[i]` on
user nodes, `movie_layers[i]` on movie nodes. -/
def updateOf (G : GraphStore gd) (enc : GraphSageEncoder d gd) (i v : ℕ) :
    GraphSageNodeUpdate d :=
  match G.ntype v with
  | NodeType.USER => enc.user_layers i
  | NodeType.ITEM => enc.movie_layers i

/-- The per-layer embedding state after the initialization loop of
`GraphSageEncoder.forward`: every node of every layer holds its initial
feature embedding under the key `h`. -/
def initState (G : GraphStore gd) (enc : GraphSageEncoder d gd) : ℕ → ℕ → Vec d :=
  fun _ v => initEmbed G enc v

/-- One iteration of the block loop of `GraphSageEncoder.forward`:
`block_compute(i)` sums the layer-`i` embeddings of the recorded
in-neighbors into `h_agg`, `deg` is the block in-degree, and
`apply_layer(i + 1)` runs the type-dispatched update on the nodes of
layer `i + 1`; all other layers are untouched. -/
def blockStep (G : GraphStore gd) (enc : GraphSageEncoder d gd) (nf : NodeFlow)
    (h : ℕ → ℕ → Vec d) (i : ℕ) : ℕ → ℕ → Vec d :=
  fun l v =>
    if l = i + 1 ∧ v ∈ nf.layerNodes (i + 1) then
      (updateOf G enc i v).forward (h (i + 1) v)
        (vsum ((nf.blockIn i v).map (h i)))
        ((nf.blockIn i v).length : ℝ)
    else h l v

/-- The embedding state of `GraphSageEncoder.forward` after the first `k`
iterations of the block loop. -/
def encState (G : GraphStore gd) (enc : GraphSageEncoder d gd) (nf : NodeFlow)
    (k : ℕ) : ℕ → ℕ → Vec d :=
  (List.range k).foldl (blockStep G enc nf) (initState G enc)

/-- An embedding output: the node set it is defined on together with the
value at each node (the array `nf.layers[-1].data['h']` indexed by the
last layer's node ids). -/
structure EmbOut (d : ℕ) where
  dom : Finset ℕ
  val : ℕ → Vec d

/-- `GraphSageEncoder.forward`: run all `numBlocks` block iterations and
return the last layer's embedding array, defined on the last layer's
node set. -/
def GraphSageEncoder.forward (enc : GraphSageEncoder d gd) (G : GraphStore gd)
    (nf : NodeFlow) : EmbOut d :=
  ⟨nf.layerNodes nf.numBlocks, fun v => encState G enc nf nf.numBlocks nf.numBlocks v⟩

/-- The layered bottom-up recursion the spec describes for the Layered
Aggregator: layer `0` (the deepest sampled ancestors) carries the initial
embeddings, and each shallower layer is obtained by one type-dispatched
update whose aggregate sums the previous (deeper) layer's just-computed
values over the recorded block in-neighbors. -/
def layerEmbSpec (G : GraphStore gd) (enc : GraphSageEncoder d gd) (nf : NodeFlow) :
    ℕ → ℕ → Vec d
  | 0, v => initEmbed G enc v
  | i + 1, v =>
    if v ∈ nf.layerNodes (i + 1) then
      (updateOf G enc i v).forward (initEmbed G enc v)
        (vsum ((nf.blockIn i v).map (fun u => layerEmbSpec G enc nf i u)))
        ((nf.blockIn i v).length : ℝ)
    else initEmbed G enc v

/-- Invariant of the block loop: after `k` iterations, layers up to `k`
hold their final bottom-up values and all deeper-indexed layers still
hold the initial embeddings. -/
theorem encState_eq (G : GraphStore gd) (enc : GraphSageEncoder d gd) (nf : NodeFlow)
    (k l v : ℕ) :
    encState G enc nf k l v =
      if l ≤ k then layerEmbSpec G enc nf l v else initEmbed G enc v := by
  induction k generalizing l v with
  | zero =>
    simp only [encState, List.range_zero, List.foldl_nil, initState]
    split
    case isTrue hl =>
      interval_cases l
      rfl
    case isFalse hl => rfl
  | succ k ih =>
    have hstep : encState G enc nf (k + 1) = blockStep G enc nf (encState G enc nf k) k := by
      simp [encState, List.range_succ]
    rw [hstep]
    simp only [blockStep]
    split
    case isTrue hc =>
      rcases hc with ⟨rfl, hv⟩
      rw [if_pos (le_refl (k + 1))]
      have h1 : encState G enc nf k (k + 1) v = initEmbed G enc v := by
        rw [ih, if_neg (by omega)]
      have hmap : (nf.blockIn k v).map (encState G enc nf k k) =
          (nf.blockIn k v).map (fun u => layerEmbSpec G enc nf k u) := by
        apply List.map_congr_left
        intro u _
        rw [ih, if_pos (le_refl k)]
      rw [h1, hmap]
      simp [layerEmbSpec, hv]
    case isFalse hc =>
      rw [ih]
      by_cases hl : l ≤ k
      · rw [if_pos hl, if_pos (by omega)]
      · by_cases hl' : l = k + 1
        · subst hl'
          rw [if_neg (by omega), if_pos (le_refl (k + 1))]
          have hv : v ∉ nf.layerNodes (k + 1) := by
            intro hmem
            exact hc ⟨rfl, hmem⟩
          simp [layerEmbSpec, hv]
        · rw [if_neg hl, if_neg (by omega)]

/-- The squared-norm sum is nonnegative. -/
theorem sqnorm_nonneg {d : ℕ} (x : Vec d) : 0 ≤ sqnorm x :=
  Finset.sum_nonneg fun j _ => sq_nonneg (x j)

/-- The Euclidean norm is nonnegative. -/
theorem l2norm_nonneg {d : ℕ} (x : Vec d) : 0 ≤ l2norm x :=
  Real.sqrt_nonneg _

/-- Dividing a vector by a positive scalar divides its Euclidean norm. -/
theorem l2norm_vdiv {d : ℕ} (x : Vec d) (c : ℝ) (hc : 0 < c) :
    l2norm (vdiv x c) = l2norm x / c := by
  unfold l2norm sqnorm vdiv
  simp_rw [div_pow, ← Finset.sum_div]
  rw [Real.sqrt_div (Finset.sum_nonneg fun j _ => sq_nonneg (x j)),
    Real.sqrt_sq hc.le]

/-- The guard constant is positive. -/
theorem eps_pos : (0 : ℝ) < eps := by norm_num [eps]

/-- Claim C2: the encoder's embedding computation proceeds from the
deepest layer toward the shallowest (its result coincides with the
bottom-up layered recursion whose base case is the deepest layer's
initial embeddings, after `numBlocks` update steps), and its output is
defined for exactly the seed node set, with no omissions or extras. -/
theorem c2_encoder_output {d gd : ℕ} (G : GraphStore gd) (enc : GraphSageEncoder d gd)
    (nf : NodeFlow) :
    (enc.forward G nf).dom = nf.seeds ∧
      ∀ v, (enc.forward G nf).val v = layerEmbSpec G enc nf nf.numBlocks v := by
  constructor
  · rfl
  · intro v
    show encState G enc nf nf.numBlocks nf.numBlocks v = _
    rw [encState_eq, if_pos (le_refl _)]

/-- Claim C10: before any block computation every node of every layer
holds its initial feature embedding, and the pre-update value of layer
`i + 1` just before block `i` runs — the `h_v_prev` fed into that
layer's update concat — is still the node's initial embedding, never
the output of an earlier update layer for the same node. -/
theorem c10_hprev_is_initial {d gd : ℕ} (G : GraphStore gd) (enc : GraphSageEncoder d gd)
    (nf : NodeFlow) :
    (∀ l v, encState G enc nf 0 l v = initEmbed G enc v) ∧
      ∀ i v, encState G enc nf i (i + 1) v = initEmbed G enc v := by
  constructor
  · intro l v
    rfl
  · intro i v
    rw [encState_eq, if_neg (by omega)]

/-- Claim C3: for a node `v` of layer `i + 1`, the aggregate is the
elementwise sum of the just-computed layer-`i` embeddings of the
recorded block in-neighbors, the degree is their count, and the stored
update result is the normalized
`leaky_relu(W_type(concat(h_v_prev, h_agg / max(deg, eps))))` with
`W_type` the dense layer selected by `v`'s node type and the layer
index. -/
theorem c3_update_rule {d gd : ℕ} (G : GraphStore gd) (enc : GraphSageEncoder d gd)
    (nf : NodeFlow) (i v : ℕ) (hv : v ∈ nf.layerNodes (i + 1)) :
    (∀ j, vsum ((nf.blockIn i v).map (encState G enc nf i i)) j
        = ((nf.blockIn i v).map (fun u => encState G enc nf i i u j)).sum) ∧
    encState G enc nf (i + 1) (i + 1) v =
      vdiv (vleakyReLU (1 / 10) ((updateOf G enc i v).W.apply
          (Fin.append (encState G enc nf i (i + 1) v)
            (vdiv (vsum ((nf.blockIn i v).map (encState G enc nf i i)))
              (max ((nf.blockIn i v).length : ℝ) eps)))))
        (max (l2norm (vleakyReLU (1 / 10) ((updateOf G enc i v).W.apply
          (Fin.append (encState G enc nf i (i + 1) v)
            (vdiv (vsum ((nf.blockIn i v).map (encState G enc nf i i)))
              (max ((nf.blockIn i v).length : ℝ) eps)))))) eps) := by
  constructor
  · intro j
    rw [vsum_apply, List.map_map]
    rfl
  · have hstep : encState G enc nf (i + 1) = blockStep G enc nf (encState G enc nf i) i := by
      simp [encState, List.range_succ]
    rw [hstep]
    show (if (i + 1 = i + 1) ∧ v ∈ nf.layerNodes (i + 1) then _ else _) = _
    rw [if_pos (And.intro rfl hv)]
    rfl

/-- Claim C5: a node with zero recorded in-neighbors gets the zero
vector as aggregate, and both guard denominators — the degree floor and
the norm floor — are strictly positive, so no division by zero occurs. -/
theorem c5_degree_zero {d gd : ℕ} (G : GraphStore gd) (enc : GraphSageEncoder d gd)
    (nf : NodeFlow) (i v : ℕ) (h0 : nf.blockIn i v = []) :
    vsum ((nf.blockIn i v).map (encState G enc nf i i)) = vzero d
    ∧ max ((nf.blockIn i v).length : ℝ) eps = eps
    ∧ 0 < max ((nf.blockIn i v).length : ℝ) eps
    ∧ ∀ x : Vec d, 0 < max (l2norm x) eps := by
  refine ⟨?_, ?_, ?_, ?_⟩
  · rw [h0]
    rfl
  · rw [h0]
    exact max_eq_right (by norm_num [eps])
  · rw [h0]
    simp only [List.length_nil, Nat.cast_zero]
    rw [max_eq_right (by norm_num [eps])]
    exact eps_pos
  · intro x
    exact lt_of_lt_of_le eps_pos (le_max_right _ _)

/-- Norm of a constant one-dimensional vector. -/
theorem l2norm_const1 (c : ℝ) (hc : 0 ≤ c) : l2norm (fun _ : Fin 1 => c) = c := by
  unfold l2norm sqnorm
  rw [Fin.sum_univ_one, Real.sqrt_sq hc]

/-- Concrete update block used by witnesses: zero weights, bias one. -/
def updZero : GraphSageNodeUpdate 1 := ⟨⟨fun _ _ => 0, fun _ => 1⟩⟩

/-- Concrete user embedding block used by witnesses: zero attribute
tables and the constant per-node vector `2`. -/
def userEmbC : UserEmbedding 1 :=
  ⟨fun _ _ => 0, fun _ _ => 0, fun _ _ => 0, fun _ _ => 0, fun _ _ => 2⟩

/-- Concrete movie embedding block: zero year and node tables, genre
projection with weight one and bias zero. -/
def movieEmbC : MovieEmbedding 1 1 :=
  ⟨fun _ _ => 0, ⟨fun _ _ => 1, fun _ => 0⟩, fun _ _ => 0⟩

/-- Concrete graph store: all nodes are users with zeroed attributes. -/
def gsC : GraphStore 1 :=
  ⟨fun _ => NodeType.USER, fun _ => ⟨0, 0, 0, 0⟩, fun _ => ⟨0, fun _ => 0⟩⟩

/-- Concrete encoder built from the witness blocks. -/
def encC : GraphSageEncoder 1 1 := ⟨fun _ => updZero, fun _ => updZero, userEmbC, movieEmbC⟩

/-- Concrete one-block flow whose every layer is `{0}` and whose blocks
record no in-neighbors. -/
def nfC : NodeFlow := ⟨1, fun _ => {0}, fun _ _ => []⟩

/-- The witness update block's pre-normalization output is constantly 1. -/
theorem updZero_preNorm (h h_agg : Vec 1) (deg : ℝ) :
    updZero.preNorm h h_agg deg = fun _ => 1 := by
  funext j
  simp [updZero, GraphSageNodeUpdate.preNorm, Dense.apply, vleakyReLU, leakyReLU]

/-- The witness user embedding is constantly 2. -/
theorem userEmbC_forward (a : UserAttr) (nid : ℕ) :
    userEmbC.forward a nid = fun _ => 2 := by
  funext j
  simp [userEmbC, UserEmbedding.forward, vadd, vsum, vzero]

/-- Claim C4: whenever the pre-normalization output of an update block
has Euclidean norm above the guard, the stored embedding has norm
exactly 1; and initial embeddings are not normalized — an explicit
user-embedding instance produces norm 2, above the guard yet not 1. -/
theorem c4_normalization {d : ℕ} (u : GraphSageNodeUpdate d) (h h_agg : Vec d) (deg : ℝ)
    (hpre : eps < l2norm (u.preNorm h h_agg deg)) :
    l2norm (u.forward h h_agg deg) = 1 ∧
      ∃ (m : UserEmbedding 1) (a : UserAttr) (nid : ℕ),
        eps < l2norm (m.forward a nid) ∧ l2norm (m.forward a nid) ≠ 1 := by
  constructor
  · have hpos : 0 < l2norm (u.preNorm h h_agg deg) := lt_trans eps_pos hpre
    unfold GraphSageNodeUpdate.forward
    rw [max_eq_left hpre.le, l2norm_vdiv _ _ hpos, div_self (ne_of_gt hpos)]
  · refine ⟨userEmbC, ⟨0, 0, 0, 0⟩, 0, ?_, ?_⟩
    · rw [userEmbC_forward, l2norm_const1 2 (by norm_num)]
      norm_num [eps]
    · rw [userEmbC_forward, l2norm_const1 2 (by norm_num)]
      norm_num

/-- Witness for C4 at a concrete update block and inputs. -/
theorem c4_normalization_witness :
    eps < l2norm (updZero.preNorm (vzero 1) (vzero 1) 0) ∧
      l2norm (updZero.forward (vzero 1) (vzero 1) 0) = 1 := by
  have hpre : eps < l2norm (updZero.preNorm (vzero 1) (vzero 1) 0) := by
    rw [updZero_preNorm, l2norm_const1 1 (by norm_num)]
    norm_num [eps]
  exact ⟨hpre, (c4_normalization updZero (vzero 1) (vzero 1) 0 hpre).1⟩

/-- Witness for C3 at the concrete flow, store and encoder. -/
theorem c3_update_rule_witness :
    0 ∈ nfC.layerNodes (0 + 1) ∧
      ((∀ j, vsum ((nfC.blockIn 0 0).map (encState gsC encC nfC 0 0)) j
          = ((nfC.blockIn 0 0).map (fun u => encState gsC encC nfC 0 0 u j)).sum) ∧
        encState gsC encC nfC (0 + 1) (0 + 1) 0 =
          vdiv (vleakyReLU (1 / 10) ((updateOf gsC encC 0 0).W.apply
              (Fin.append (encState gsC encC nfC 0 (0 + 1) 0)
                (vdiv (vsum ((nfC.blockIn 0 0).map (encState gsC encC nfC 0 0)))
                  (max ((nfC.blockIn 0 0).length : ℝ) eps)))))
            (max (l2norm (vleakyReLU (1 / 10) ((updateOf gsC encC 0 0).W.apply
              (Fin.append (encState gsC encC nfC 0 (0 + 1) 0)
                (vdiv (vsum ((nfC.blockIn 0 0).map (encState gsC encC nfC 0 0)))
                  (max ((nfC.blockIn 0 0).length : ℝ) eps)))))) eps)) := by
  have hv : 0 ∈ nfC.layerNodes (0 + 1) := by decide
  exact ⟨hv, c3_update_rule gsC encC nfC 0 0 hv⟩

/-- Witness for C5 at the concrete flow with an empty block. -/
theorem c5_degree_zero_witness :
    nfC.blockIn 0 0 = [] ∧
      (vsum ((nfC.blockIn 0 0).map (encState gsC encC nfC 0 0)) = vzero 1
      ∧ max ((nfC.blockIn 0 0).length : ℝ) eps = eps
      ∧ 0 < max ((nfC.blockIn 0 0).length : ℝ) eps
      ∧ ∀ x : Vec 1, 0 < max (l2norm x) eps) :=
  ⟨rfl, c5_degree_zero gsC encC nfC 0 0 rfl⟩

/-- Claim C9: the decoder returns the dot product of the two embeddings
plus two lookups into the single shared learned bias table — the spec's
scorer contract, with the bias vector read through the `id + 1` shift the
code uses into its one shared `node_biases` row. -/
theorem c9_scorer {d : ℕ} (dec : DotDecoder) (h_users h_items : Vec d) (users items : ℕ) :
    dec.forward h_users h_items users items =
      scoreSpec (fun nid => dec.biases (nid + 1)) h_users h_items users items :=
  rfl

/-- Claim C6 (amended): the initial embedding of a node is the per-node
table lookup plus the sum of its categorical attribute lookups,
dispatched on node type; for ITEM nodes the genre contribution is the
dense projection of the genre vector followed by the leaky rectifier. -/
theorem c6_initial_embedding {d gd : ℕ} (G : GraphStore gd) (enc : GraphSageEncoder d gd)
    (v : ℕ) (j : Fin d) :
    initEmbed G enc v j =
      match G.ntype v with
      | NodeType.USER =>
          enc.user_emb.node_emb (v + 1) j +
            (enc.user_emb.emb_age (G.uattr v).age j
              + enc.user_emb.emb_gender (G.uattr v).gender j
              + enc.user_emb.emb_occupation (G.uattr v).occupation j
              + enc.user_emb.emb_zip (G.uattr v).zip j)
      | NodeType.ITEM =>
          enc.movie_emb.node_emb (v + 1) j +
            (enc.movie_emb.emb_year (G.mattr v).year j
              + leakyReLU (1 / 10) (enc.movie_emb.proj_genre.apply (G.mattr v).genre j)) := by
  cases h : G.ntype v <;>
    (simp [initEmbed, h, UserEmbedding.forward, MovieEmbedding.forward, vadd, vsum, vzero,
      vleakyReLU]; try ring)

/-- The witness movie embedding reduces to the rectified genre value. -/
theorem movieEmbC_forward (c : ℝ) (j : Fin 1) :
    movieEmbC.forward ⟨0, fun _ => c⟩ 0 j = leakyReLU (1 / 10) c := by
  simp [movieEmbC, MovieEmbedding.forward, vadd, vsum, vzero, vleakyReLU, Dense.apply,
    Fin.sum_univ_one]

/-- Counterexample to C6 as stated: the genre contribution of the movie
initial embedding is not a dense linear (or affine) projection — at an
explicit parameter instance the midpoint identity that every affine map
of the genre scalar satisfies fails, because a leaky rectifier follows
the dense layer. -/
theorem c6_counterexample :
    ¬ ∃ (M b C : ℝ), ∀ c : ℝ,
        movieEmbC.forward ⟨0, fun _ => c⟩ 0 0 = C + (M * c + b) := by
  rintro ⟨M, b, C, hf⟩
  have h1 := hf 1
  have h2 := hf (-1)
  have h0 := hf 0
  rw [movieEmbC_forward] at h1 h2 h0
  norm_num [leakyReLU] at h1 h2 h0
  linarith

/-- Modelled from the spec: the per-node sampling step of DGL's
`NeighborSampler` (invoked by the notebook with `add_self_loop=True` and
fan-out `num_neighbors`) is library code not present in this repository,
so it is modelled from spec section 4.2 — for a node `v` the sampler
draws a set `sample v` of `min(K, |neighbors v|)` true Graph Store
neighbors without replacement, and the block recorded for `v` is the
sampled set together with `v` itself (the self-loop). -/
def sampledBlock (sample : ℕ → Finset ℕ) (v : ℕ) : Finset ℕ := sample v ∪ {v}

/-- Modelled from the spec: the without-replacement sampling contract of
spec section 4.2 — the draw is a subset of the true neighbor set of size
`min(K, |neighbors v|)`. -/
def SampleOK (neighbors sample : ℕ → Finset ℕ) (K v : ℕ) : Prop :=
  sample v ⊆ neighbors v ∧ (sample v).card = min K (neighbors v).card

/-- Counterexample to C1 as stated: with fan-out `K = 2` and a node with
two true neighbors, a legal without-replacement draw yields a recorded
block of 3 entries (both neighbors plus the self-loop), exceeding `K`.
This is exactly the spec's own section-8 scenario for node `u1`. -/
theorem c1_counterexample :
    SampleOK (fun _ => {1, 2}) (fun _ => {1, 2}) 2 0 ∧
      ¬ (sampledBlock (fun _ => {1, 2}) 0).card ≤ 2 := by
  constructor
  · constructor
    · decide
    · decide
  · decide

/-- Claim C1 (amended): the block recorded for `v` has at most `K + 1`
entries, always contains `v` itself, and every id in it is a true
neighbor of `v` in the Graph Store or `v` itself. -/
theorem c1_block_shape (neighbors sample : ℕ → Finset ℕ) (K v : ℕ)
    (hok : SampleOK neighbors sample K v) :
    (sampledBlock sample v).card ≤ K + 1
    ∧ v ∈ sampledBlock sample v
    ∧ sampledBlock sample v ⊆ neighbors v ∪ {v} := by
  obtain ⟨hsub, hcard⟩ := hok
  refine ⟨?_, ?_, ?_⟩
  · calc (sample v ∪ {v}).card ≤ (sample v).card + ({v} : Finset ℕ).card :=
        Finset.card_union_le _ _
      _ = min K (neighbors v).card + 1 := by rw [hcard, Finset.card_singleton]
      _ ≤ K + 1 := by
        have := min_le_left K (neighbors v).card
        omega
  · exact Finset.mem_union_right _ (Finset.mem_singleton_self v)
  · exact Finset.union_subset_union hsub (subset_refl _)

/-- Witness for the amended C1 at a concrete neighbor set and draw. -/
theorem c1_block_shape_witness :
    SampleOK (fun _ => {1, 2}) (fun _ => {1}) 1 0 ∧
      ((sampledBlock (fun _ => {1}) 0).card ≤ 1 + 1
      ∧ 0 ∈ sampledBlock (fun _ => {1}) 0
      ∧ sampledBlock (fun _ => {1}) 0 ⊆ (fun _ => ({1, 2} : Finset ℕ)) 0 ∪ {0}) :=
  ⟨⟨by decide, by decide⟩, c1_block_shape (fun _ => {1, 2}) (fun _ => {1}) 1 0
    ⟨by decide, by decide⟩⟩

/-- The slicing loop of `EdgeSampler.__init__` (`for i in range(0, E, B)`
take the slice `[i : min(i + B, E)]`), written as recursion on the list
with the list's length as fuel — one chunk consumes at least one element
whenever `0 < B`, so the fuel never runs out. -/
def chunksAux {α : Type} (B : ℕ) : ℕ → List α → List (List α)
  | 0, _ => []
  | _ + 1, [] => []
  | n + 1, a :: l => (a :: l).take B :: chunksAux B n ((a :: l).drop B)

/-- Contiguous chunks of size `B` of a list (last chunk possibly smaller). -/
def chunks {α : Type} (B : ℕ) (l : List α) : List (List α) := chunksAux B l.length l

/-- `chunksAux` of the empty list is empty for any fuel. -/
theorem chunksAux_nil {α : Type} (B n : ℕ) : chunksAux B n ([] : List α) = [] := by
  cases n <;> rfl

/-- With enough fuel the chunks concatenate back to the original list. -/
theorem chunksAux_join {α : Type} (B : ℕ) (hB : 0 < B) :
    ∀ n (l : List α), l.length ≤ n → (chunksAux B n l).flatten = l := by
  intro n
  induction n with
  | zero =>
    intro l hl
    rw [List.eq_nil_of_length_eq_zero (Nat.le_zero.mp hl)]
    rfl
  | succ n ih =>
    intro l hl
    cases l with
    | nil => rfl
    | cons a t =>
      simp only [chunksAux, List.flatten_cons]
      rw [ih ((a :: t).drop B) (by simp at hl ⊢; omega)]
      exact List.take_append_drop B (a :: t)

/-- `chunksAux` commutes with mapping a function over the list. -/
theorem chunksAux_map {α β : Type} (B : ℕ) (f : α → β) :
    ∀ n (l : List α), chunksAux B n (l.map f) = (chunksAux B n l).map (List.map f) := by
  intro n
  induction n with
  | zero => intro l; rfl
  | succ n ih =>
    intro l
    cases l with
    | nil => rfl
    | cons a t =>
      show ((a :: t).map f).take B :: chunksAux B n (((a :: t).map f).drop B) = _
      rw [← List.map_take, ← List.map_drop, ih]
      rfl

/-- Every chunk has at most `B` elements. -/
theorem chunksAux_mem_length {α : Type} (B : ℕ) :
    ∀ n (l : List α), ∀ c ∈ chunksAux B n l, c.length ≤ B := by
  intro n
  induction n with
  | zero =>
    intro l c hc
    simp [chunksAux] at hc
  | succ n ih =>
    intro l c hc
    cases l with
    | nil => simp [chunksAux] at hc
    | cons a t =>
      simp only [chunksAux, List.mem_cons] at hc
      rcases hc with rfl | hc
      · simp [List.length_take]
      · exact ih _ c hc

/-- Every chunk except possibly the last has exactly `B` elements. -/
theorem chunksAux_dropLast {α : Type} (B : ℕ) :
    ∀ n (l : List α), ∀ c ∈ (chunksAux B n l).dropLast, c.length = B := by
  intro n
  induction n with
  | zero =>
    intro l c hc
    simp [chunksAux] at hc
  | succ n ih =>
    intro l c hc
    cases l with
    | nil => simp [chunksAux] at hc
    | cons a t =>
      simp only [chunksAux] at hc
      rcases hr : chunksAux B n ((a :: t).drop B) with _ | ⟨r, rs⟩
      · rw [hr] at hc
        simp at hc
      · rw [hr] at hc
        simp only [List.dropLast_cons₂, List.mem_cons] at hc
        rcases hc with rfl | hc
        · have hlen : B < (a :: t).length := by
            by_contra hle
            push_neg at hle
            have : (a :: t).drop B = [] := List.drop_eq_nil_of_le hle
            rw [this, chunksAux_nil] at hr
            exact List.noConfusion hr
          rw [List.length_take]
          exact min_eq_left (le_of_lt hlen)
        · exact ih _ c (by rw [hr]; exact hc)

/-- With enough fuel the number of chunks is `⌈length / B⌉`. -/
theorem chunksAux_count {α : Type} (B : ℕ) (hB : 0 < B) :
    ∀ n (l : List α), l.length ≤ n →
      (chunksAux B n l).length = (l.length + B - 1) / B := by
  intro n
  induction n with
  | zero =>
    intro l hl
    rw [List.eq_nil_of_length_eq_zero (Nat.le_zero.mp hl)]
    simp [chunksAux]
    rw [Nat.div_eq_of_lt (by omega)]
  | succ n ih =>
    intro l hl
    cases l with
    | nil =>
      simp [chunksAux]
      rw [Nat.div_eq_of_lt (by omega)]
    | cons a t =>
      simp only [chunksAux, List.length_cons]
      rw [ih _ (by simp at hl ⊢; omega), List.length_drop, List.length_cons]
      by_cases hle : t.length + 1 ≤ B
      · have h0 : t.length + 1 - B = 0 := by omega
        rw [h0, Nat.zero_add, Nat.div_eq_of_lt (by omega)]
        symm
        apply Nat.div_eq_of_lt_le <;> omega
      · have h1 : t.length + 1 - B + B - 1 = t.length := by omega
        have h2 : t.length + 1 + B - 1 = t.length + B := by omega
        rw [h1, h2, Nat.add_div_right _ hB]

/-- The shuffled index array `shuffle_idx = np.random.permutation(E)` of
`EdgeSampler.__init__`, with the random draw injectable as the
permutation `σ`. -/
def shuffleIdx (E : ℕ) (σ : Equiv.Perm (Fin E)) : List (Fin E) :=
  (List.finRange E).map σ

/-- The batch construction of `EdgeSampler.__init__` applied to one
per-edge array `f`: the loop slices `shuffle_idx[i : min(i + B, E)]`
into contiguous chunks and indexes the already-shuffled array with each
chunk (`f_shuffled[shuffle_idx[i:j]]`), so entry `k` of a chunk fetches
`f (σ k)`. -/
def batchesOf {α : Type} {E : ℕ} (B : ℕ) (σ : Equiv.Perm (Fin E)) (f : Fin E → α) :
    List (List α) :=
  (chunks B (shuffleIdx E σ)).map (List.map (fun k => f (σ k)))

/-- Mapping a permutation over `finRange` permutes it. -/
theorem finRange_map_perm {E : ℕ} (τ : Equiv.Perm (Fin E)) :
    ((List.finRange E).map τ).Perm (List.finRange E) := by
  apply List.perm_of_nodup_nodup_toFinset_eq
  · exact (List.nodup_finRange E).map τ.injective
  · exact List.nodup_finRange E
  · ext x
    simp only [List.mem_toFinset, List.mem_map, List.mem_finRange, true_and, iff_true]
    exact ⟨τ.symm x, τ.apply_symm_apply x⟩

/-- The double indexing of `EdgeSampler.__init__` collapses to: permute
the array once by `σ ∘ σ`, then slice contiguously. -/
theorem batchesOf_eq_chunks {α : Type} {E : ℕ} (B : ℕ) (σ : Equiv.Perm (Fin E))
    (f : Fin E → α) :
    batchesOf B σ f = chunks B ((List.finRange E).map (fun k => f (σ (σ k)))) := by
  unfold batchesOf chunks shuffleIdx
  rw [← chunksAux_map]
  simp only [List.map_map, List.length_map, List.length_finRange]
  rfl

/-- Batches of a composed fetch are the mapped batches of the base fetch. -/
theorem batchesOf_map {α β : Type} {E : ℕ} (B : ℕ) (σ : Equiv.Perm (Fin E))
    (f : Fin E → α) (g : α → β) :
    batchesOf B σ (fun k => g (f k)) = (batchesOf B σ f).map (List.map g) := by
  unfold batchesOf
  simp [List.map_map, Function.comp]

/-- Claim C7: the `EdgeSampler` batches are the contiguous size-`B`
chunks of the per-edge arrays reordered by one single permutation (the
square of the drawn shuffle, because `__init__` indexes the
already-shuffled arrays with the shuffle index again); consequently the
batches concatenate to a permutation of the full edge list — no
duplicates, no omissions — every batch except possibly the last has
exactly `B` entries, none exceeds `B`, and the three per-batch arrays
stay aligned: each position carries the src, dst and rating of one and
the same edge. -/
theorem c7_edge_batches {E : ℕ} (B : ℕ) (hB : 0 < B) (σ : Equiv.Perm (Fin E))
    (src dst : Fin E → ℕ) (rating : Fin E → ℝ) :
    (∃ τ : Equiv.Perm (Fin E),
        batchesOf B σ src = chunks B ((List.finRange E).map (fun k => src (τ k)))
      ∧ batchesOf B σ dst = chunks B ((List.finRange E).map (fun k => dst (τ k)))
      ∧ batchesOf B σ rating = chunks B ((List.finRange E).map (fun k => rating (τ k))))
    ∧ ((batchesOf B σ (fun k => (src k, dst k, rating k))).flatten).Perm
        ((List.finRange E).map (fun k => (src k, dst k, rating k)))
    ∧ (∀ c ∈ batchesOf B σ src, c.length ≤ B)
    ∧ (∀ c ∈ (batchesOf B σ src).dropLast, c.length = B)
    ∧ batchesOf B σ src
        = (batchesOf B σ (fun k => (src k, dst k, rating k))).map (List.map (fun p => p.1))
    ∧ batchesOf B σ dst
        = (batchesOf B σ (fun k => (src k, dst k, rating k))).map (List.map (fun p => p.2.1))
    ∧ batchesOf B σ rating
        = (batchesOf B σ (fun k => (src k, dst k, rating k))).map
            (List.map (fun p => p.2.2)) := by
  refine ⟨⟨σ.trans σ, ?_, ?_, ?_⟩, ?_, ?_, ?_, ?_, ?_, ?_⟩
  · rw [batchesOf_eq_chunks]
    rfl
  · rw [batchesOf_eq_chunks]
    rfl
  · rw [batchesOf_eq_chunks]
    rfl
  · rw [batchesOf_eq_chunks]
    unfold chunks
    rw [chunksAux_join B hB _ _ (le_refl _)]
    have h1 : (List.finRange E).map (fun k => (src (σ (σ k)), dst (σ (σ k)), rating (σ (σ k))))
        = ((List.finRange E).map (σ.trans σ)).map (fun k => (src k, dst k, rating k)) := by
      rw [List.map_map]
      rfl
    rw [h1]
    exact (finRange_map_perm (σ.trans σ)).map _
  · intro c hc
    rw [batchesOf_eq_chunks] at hc
    exact chunksAux_mem_length B _ _ c hc
  · intro c hc
    rw [batchesOf_eq_chunks] at hc
    exact chunksAux_dropLast B _ _ c hc
  · rw [← batchesOf_map B σ (fun k => (src k, dst k, rating k)) (fun p => p.1)]
  · rw [← batchesOf_map B σ (fun k => (src k, dst k, rating k)) (fun p => p.2.1)]
  · rw [← batchesOf_map B σ (fun k => (src k, dst k, rating k)) (fun p => p.2.2)]

/-- Iterator state of `EdgeSampler`: the precomputed batch list and the
cursor `self.i`. -/
structure EdgeIter (α : Type) where
  batches : List α
  i : ℕ

/-- A fresh iterator as produced by `EdgeSampler.__init__` (`self.i = 0`);
the `train` loop constructs a fresh `EdgeSampler`, with a fresh shuffle,
on every epoch. -/
def mkEdgeIter {α : Type} (batches : List α) : EdgeIter α := ⟨batches, 0⟩

/-- `EdgeSampler.__next__`: yield batch `i` and advance the cursor, or
signal `StopIteration` (`none`) once `i` has reached the number of
batches. -/
def iterNext {α : Type} (s : EdgeIter α) : Option (α × EdgeIter α) :=
  match s.batches[s.i]? with
  | some b => some (b, ⟨s.batches, s.i + 1⟩)
  | none => none

/-- Drain an iterator for at most `fuel` steps, collecting the yields. -/
def iterRun {α : Type} : ℕ → EdgeIter α → List α
  | 0, _ => []
  | fuel + 1, s =>
    match iterNext s with
    | none => []
    | some (b, s') => b :: iterRun fuel s'

/-- Draining from cursor `i` yields exactly the remaining batches. -/
theorem iterRun_drop {α : Type} :
    ∀ (fuel : ℕ) (bs : List α) (i : ℕ), bs.length - i ≤ fuel →
      iterRun fuel ⟨bs, i⟩ = bs.drop i := by
  intro fuel
  induction fuel with
  | zero =>
    intro bs i hi
    rw [List.drop_eq_nil_of_le (by omega)]
    rfl
  | succ fuel ih =>
    intro bs i hi
    rcases hbi : bs[i]? with _ | b
    · rw [List.drop_eq_nil_of_le (List.getElem?_eq_none_iff.mp hbi)]
      simp [iterRun, iterNext, hbi]
    · have hlt : i < bs.length := by
        by_contra hge
        rw [List.getElem?_eq_none_iff.mpr (by omega)] at hbi
        exact Option.noConfusion hbi
      have hb : bs[i] = b := by
        have := List.getElem?_eq_getElem hlt
        rw [hbi] at this
        exact (Option.some.injEq _ _).mp this.symm
      rw [List.drop_eq_getElem_cons hlt]
      simp only [iterRun, iterNext, hbi]
      rw [ih bs (i + 1) (by omega), hb]

/-- Claim C8: the `EdgeSampler` iterator yields its batches exactly
once — `⌈E / B⌉` of them — then signals `StopIteration`, and continuing
to iterate the same exhausted iterator yields nothing more; a fresh
iterator (`mkEdgeIter`, cursor `0`) restarts the pass. -/
theorem c8_iterator {E : ℕ} (B : ℕ) (σ : Equiv.Perm (Fin E))
    (f : Fin E → ℕ × ℕ × ℝ) (fuel : ℕ) (hB : 0 < B)
    (hf : (batchesOf B σ f).length ≤ fuel) :
    iterRun fuel (mkEdgeIter (batchesOf B σ f)) = batchesOf B σ f
    ∧ (batchesOf B σ f).length = (E + B - 1) / B
    ∧ iterNext (⟨batchesOf B σ f, (batchesOf B σ f).length⟩ : EdgeIter (List (ℕ × ℕ × ℝ)))
        = none
    ∧ ∀ fuel2, iterRun fuel2
        (⟨batchesOf B σ f, (batchesOf B σ f).length⟩ : EdgeIter (List (ℕ × ℕ × ℝ))) = [] := by
  refine ⟨?_, ?_, ?_, ?_⟩
  · rw [show mkEdgeIter (batchesOf B σ f) = ⟨batchesOf B σ f, 0⟩ from rfl,
      iterRun_drop fuel _ 0 (by omega)]
    exact List.drop_zero _
  · rw [batchesOf_eq_chunks]
    unfold chunks
    rw [chunksAux_count B hB _ _ (le_refl _)]
    simp
  · simp [iterNext, List.getElem?_eq_none_iff.mpr (le_refl _)]
  · intro fuel2
    rw [iterRun_drop fuel2 _ _ (by omega)]
    exact List.drop_length _

/-- Witness permutation on three edges (for C7 and C8 witnesses). -/
def sigC : Equiv.Perm (Fin 3) := Equiv.refl (Fin 3)

/-- Witness for C7 at three concrete edges and batch size two. -/
theorem c7_edge_batches_witness :
    (0 : ℕ) < 2 ∧
      ((∃ τ : Equiv.Perm (Fin 3),
          batchesOf 2 sigC (fun k => (k : ℕ))
            = chunks 2 ((List.finRange 3).map (fun k => ((τ k : Fin 3) : ℕ)))
        ∧ batchesOf 2 sigC (fun k => ((k : ℕ) + 3))
            = chunks 2 ((List.finRange 3).map (fun k => ((τ k : Fin 3) : ℕ) + 3))
        ∧ batchesOf 2 sigC (fun _ => (1 : ℝ))
            = chunks 2 ((List.finRange 3).map (fun _ => (1 : ℝ))))
      ∧ ((batchesOf 2 sigC
            (fun k => ((k : ℕ), (k : ℕ) + 3, (1 : ℝ)))).flatten).Perm
          ((List.finRange 3).map (fun k => ((k : ℕ), (k : ℕ) + 3, (1 : ℝ))))
      ∧ (∀ c ∈ batchesOf 2 sigC (fun k => (k : ℕ)), c.length ≤ 2)
      ∧ (∀ c ∈ (batchesOf 2 sigC (fun k => (k : ℕ))).dropLast, c.length = 2)
      ∧ batchesOf 2 sigC (fun k => (k : ℕ))
          = (batchesOf 2 sigC (fun k => ((k : ℕ), (k : ℕ) + 3, (1 : ℝ)))).map
              (List.map (fun p => p.1))
      ∧ batchesOf 2 sigC (fun k => ((k : ℕ) + 3))
          = (batchesOf 2 sigC (fun k => ((k : ℕ), (k : ℕ) + 3, (1 : ℝ)))).map
              (List.map (fun p => p.2.1))
      ∧ batchesOf 2 sigC (fun _ => (1 : ℝ))
          = (batchesOf 2 sigC (fun k => ((k : ℕ), (k : ℕ) + 3, (1 : ℝ)))).map
              (List.map (fun p => p.2.2))) :=
  ⟨by norm_num, c7_edge_batches 2 (by norm_num) sigC (fun k => (k : ℕ))
    (fun k => ((k : ℕ) + 3)) (fun _ => (1 : ℝ))⟩

/-- Witness for C8 at the same concrete edges, with fuel equal to the
batch count. -/
theorem c8_iterator_witness :
    (0 : ℕ) < 2 ∧
      (batchesOf 2 sigC (fun k => ((k : ℕ), (k : ℕ), (0 : ℝ)))).length
        ≤ (batchesOf 2 sigC (fun k => ((k : ℕ), (k : ℕ), (0 : ℝ)))).length ∧
      (iterRun (batchesOf 2 sigC (fun k => ((k : ℕ), (k : ℕ), (0 : ℝ)))).length
          (mkEdgeIter (batchesOf 2 sigC (fun k => ((k : ℕ), (k : ℕ), (0 : ℝ)))))
        = batchesOf 2 sigC (fun k => ((k : ℕ), (k : ℕ), (0 : ℝ)))
      ∧ (batchesOf 2 sigC (fun k => ((k : ℕ), (k : ℕ), (0 : ℝ)))).length = (3 + 2 - 1) / 2
      ∧ iterNext (⟨batchesOf 2 sigC (fun k => ((k : ℕ), (k : ℕ), (0 : ℝ))),
            (batchesOf 2 sigC (fun k => ((k : ℕ), (k : ℕ), (0 : ℝ)))).length⟩
            : EdgeIter (List (ℕ × ℕ × ℝ))) = none
      ∧ ∀ fuel2, iterRun fuel2
          (⟨batchesOf 2 sigC (fun k => ((k : ℕ), (k : ℕ), (0 : ℝ))),
            (batchesOf 2 sigC (fun k => ((k : ℕ), (k : ℕ), (0 : ℝ)))).length⟩
            : EdgeIter (List (ℕ × ℕ × ℝ))) = []) :=
  ⟨by norm_num, le_refl _, c8_iterator 2 sigC (fun k => ((k : ℕ), (k : ℕ), (0 : ℝ)))
    (batchesOf 2 sigC (fun k => ((k : ℕ), (k : ℕ), (0 : ℝ)))).length
    (by norm_num) (le_refl _)⟩

end

end RecSys
